import Mathlib

/-
Verification of the voice-interaction subsystem of the chat front-end
(src/index.tsx): wake-word matching, voice-command interpretation,
recognition-session lifecycle, inactivity timing, mode coordination and
speech-synthesis playback.  All definitions are shallow embeddings of the
TypeScript source; character-level string processing is modelled over
List Char.  JavaScript regular expressions appearing in the source are
embedded as executable matchers that follow the engine's
leftmost / greedy-with-backtracking semantics for the concrete patterns
used by the code.
-/

namespace VoiceApp

/-! ### Character-level primitives

`lowerChar` models the ASCII fragment of JavaScript case-insensitive
matching; `jsWs` models the JavaScript whitespace class (ASCII part plus
NBSP) used both by the regex class W backslash-s and by String.prototype.trim;
`isWordChar` models the regex word class underlying word boundaries. -/

def lowerChar (c : Char) : Char :=
  if 'A' ≤ c ∧ c ≤ 'Z' then Char.ofNat (c.toNat + 32) else c

def jsWs (c : Char) : Bool :=
  c = ' ' || c = '\t' || c = '\n' || c = '\x0d' || c = Char.ofNat 11 ||
  c = Char.ofNat 12 || c = Char.ofNat 160

def isWordChar (c : Char) : Bool :=
  ('a' ≤ c && c ≤ 'z') || ('A' ≤ c && c ≤ 'Z') || ('0' ≤ c && c ≤ '9') || c = '_'

/-- Line-terminator characters, which the regex `.` metacharacter does not
match in JavaScript (no `s` flag anywhere in the source). -/
def isNl (c : Char) : Bool :=
  c = '\n' || c = '\x0d' || c = Char.ofNat 0x2028 || c = Char.ofNat 0x2029

/-- JavaScript `String.prototype.trim`, over `List Char`. -/
def jsTrim (l : List Char) : List Char :=
  ((l.dropWhile jsWs).reverse.dropWhile jsWs).reverse

/-- Characters with no special meaning inside a JavaScript regular
expression; the code interpolates the wake phrase into a regex verbatim,
so the literal-character model of the matcher is faithful exactly for
phrases built from these. -/
def regexSafe (c : Char) : Bool :=
  !(c = '.' || c = '*' || c = '+' || c = '?' || c = '(' || c = ')' ||
    c = '[' || c = ']' || c = '\x7b' || c = '\x7d' || c = '|' ||
    c = '^' || c = '$' || c = '\\')

/-- Models `parseInt(_, 10)` on a string of decimal digits. -/
def natOfDigits (l : List Char) : Nat :=
  l.foldl (fun n c => n * 10 + (c.toNat - '0'.toNat)) 0

/-! ### The wake-word matcher

Source (src/index.tsx line 513-517):

  const wakeWordRegex =
    new RegExp(`\x5cb(X)\x5cb`, 'i')   -- X = wake phrase, spaces ~> "zero or more whitespace"
  const match = finalTranscript.match(wakeWordRegex);
  const commandText =
    finalTranscript.substring(match.index + match[0].length).trim();

The phrase is compiled to a token list: each space becomes a `star`
(zero-or-more whitespace) and every other character a case-insensitive
literal.  `matchToks` is the backtracking matcher for the token list
followed by the trailing word boundary; `matchFrom` is the engine's
leftmost scan with the leading word boundary. -/

inductive Tok where
  | lit (c : Char)
  | star
  deriving DecidableEq, Repr

def toksOf (w : List Char) : List Tok :=
  w.map (fun c => if c = ' ' then Tok.star else Tok.lit c)

/-- Regex word boundary between an optional previous character and an
optional next character. -/
def atBoundary (prev next : Option Char) : Bool :=
  ((prev.map isWordChar).getD false).xor ((next.map isWordChar).getD false)

/-- Previous character tracking helper: the character immediately before the
remainder `rest`, given that the characters `l` were consumed since the
previous character was `p`. -/
def lastOr (l : List Char) (p : Option Char) : Option Char :=
  match l.getLast? with
  | some c => some c
  | none => p

/-- Greedy-with-backtracking matching of a single `star` (zero or more
whitespace characters) followed by the continuation `k`.  Returns the total
number of characters consumed. -/
def matchStar (k : Option Char → List Char → Option Nat) :
    Option Char → List Char → Option Nat
  | prev, [] => k prev []
  | prev, x :: xs =>
    if jsWs x then
      match matchStar k (some x) xs with
      | some n => some (n + 1)
      | none => k prev (x :: xs)
    else k prev (x :: xs)

/-- Backtracking matcher for a token list followed by the trailing word
boundary.  `prev` is the character immediately before the current position
(`none` at the start of the string); the result is the number of characters
consumed by the whole pattern. -/
def matchToks : List Tok → Option Char → List Char → Option Nat
  | [], prev, rest => if atBoundary prev rest.head? then some 0 else none
  | Tok.lit c :: ts, _, rest =>
    match rest with
    | [] => none
    | x :: xs =>
      if lowerChar x = lowerChar c then (matchToks ts (some x) xs).map (· + 1)
      else none
  | Tok.star :: ts, prev, rest => matchStar (matchToks ts) prev rest

/-- One attempt at the current position: leading word boundary, then the
token pattern with its trailing boundary. -/
def tryAt (toks : List Tok) (prev : Option Char) (rest : List Char) : Option Nat :=
  if atBoundary prev rest.head? then matchToks toks prev rest else none

/-- The engine's leftmost scan: try each position in turn, returning the
match position and length of the first success. -/
def matchFrom (toks : List Tok) (prev : Option Char) (rest : List Char)
    (i : Nat) : Option (Nat × Nat) :=
  match tryAt toks prev rest with
  | some n => some (i, n)
  | none =>
    match rest with
    | [] => none
    | x :: xs => matchFrom toks (some x) xs (i + 1)

/-- Models `finalTranscript.match(wakeWordRegex)`: position and length of the
leftmost match of the wake phrase `w` in the transcript `t`. -/
def wakeMatchL (w t : List Char) : Option (Nat × Nat) :=
  matchFrom (toksOf w) none t 0

/-- Models `finalTranscript.substring(match.index + match[0].length).trim()`. -/
def commandTextL (w t : List Char) : Option (List Char) :=
  match wakeMatchL w t with
  | some (i, n) => some (jsTrim (t.drop (i + n)))
  | none => none

def wakeWordMatch (w t : String) : Option (Nat × Nat) :=
  wakeMatchL w.data t.data

def commandTextOf (w t : String) : Option String :=
  (commandTextL w.data t.data).map String.mk

/-! ### Declarative characterisation of the matcher

`ToksMatch` is the declarative (non-algorithmic) matching relation for the
token pattern; `CodeOccursAt w t j n` says that the wake phrase pattern
matches `n` characters of `t` at position `j` with both word boundaries. -/

inductive ToksMatch : List Tok → Option Char → List Char → Nat → Prop where
  | nil {prev : Option Char} {rest : List Char}
      (h : atBoundary prev rest.head? = true) : ToksMatch [] prev rest 0
  | lit {c x : Char} {ts : List Tok} {prev : Option Char} {xs : List Char} {n : Nat}
      (hx : lowerChar x = lowerChar c) (h : ToksMatch ts (some x) xs n) :
      ToksMatch (Tok.lit c :: ts) prev (x :: xs) (n + 1)
  | starSkip {ts : List Tok} {prev : Option Char} {rest : List Char} {n : Nat}
      (h : ToksMatch ts prev rest n) : ToksMatch (Tok.star :: ts) prev rest n
  | starCons {ts : List Tok} {x : Char} {prev : Option Char} {xs : List Char} {n : Nat}
      (hx : jsWs x = true) (h : ToksMatch (Tok.star :: ts) (some x) xs n) :
      ToksMatch (Tok.star :: ts) prev (x :: xs) (n + 1)

/-- The wake phrase matches `n` characters of `t` at position `j`, exactly in
the sense compiled from the source pattern: word boundary, words of the
phrase case-insensitively with arbitrary (possibly zero) whitespace between
them, word boundary. -/
def CodeOccursAt (w t : List Char) (j n : Nat) : Prop :=
  ∃ u v, t = u ++ v ∧ u.length = j ∧
    atBoundary u.getLast? v.head? = true ∧
    ToksMatch (toksOf w) u.getLast? v n

/-! ### The claim's notion of containment

Modelled from the spec's words, for comparison with the code's matcher:
"T contains W as a whitespace-delimited substring (case-insensitive, with
arbitrary whitespace between the words of W)".  The words of W must occur in
order, separated by at least one whitespace character, and the whole
occurrence must be delimited by whitespace or the ends of T. -/

def stripWordCI : List Char → List Char → Option (List Char)
  | [], rest => some rest
  | _ :: _, [] => none
  | p :: ps, x :: xs =>
    if lowerChar x = lowerChar p then stripWordCI ps xs else none

/-- The words of the wake phrase: maximal whitespace-free runs (computed
by splitting at every whitespace character and discarding the empty
segments). -/
def wordsOf (l : List Char) : List (List Char) :=
  (l.foldr
    (fun c acc =>
      if jsWs c then [] :: acc
      else
        match acc with
        | [] => [[c]]
        | w :: ws => (c :: w) :: ws)
    []).filter (fun w => !w.isEmpty)

/-- After the first word: each further word must be preceded by at least one
whitespace character, and the occurrence must end at whitespace or the end
of the transcript. -/
def specAfterWords : List (List Char) → List Char → Bool
  | [], rest =>
    match rest.head? with
    | none => true
    | some c => jsWs c
  | w :: ws, rest =>
    let r := rest.dropWhile jsWs
    if r.length = rest.length then false
    else
      match stripWordCI w r with
      | some r' => specAfterWords ws r'
      | none => false

def specAtPos (ws : List (List Char)) (rest : List Char) : Bool :=
  match ws with
  | [] => false
  | w :: ws' =>
    match stripWordCI w rest with
    | some r => specAfterWords ws' r
    | none => false

def anySuffix (p : Option Char → List Char → Bool) :
    Option Char → List Char → Bool
  | prev, [] => p prev []
  | prev, x :: xs => p prev (x :: xs) || anySuffix p (some x) xs

/-- Containment of W in T, per the spec's words ("T contains W as a
whitespace-delimited substring"):
words: executable so that it can be decided at concrete inputs. -/
def specContainsB (w t : List Char) : Bool :=
  anySuffix
    (fun prev rest =>
      (match prev with
       | none => true
       | some c => jsWs c) && specAtPos (wordsOf w) rest)
    none t

/-! ### The voice command interpreter

Source (src/index.tsx lines 519-542).  Two fixed regular expressions are
tried in order; the embedded parsers below follow the engine's alternation
order and greedy repetition, both of which are deterministic for these
patterns (every repetition is followed by a character it can never
consume). -/

def stripPrefixCI : List Char → List Char → Option (List Char)
  | [], rest => some rest
  | _ :: _, [] => none
  | p :: ps, x :: xs =>
    if lowerChar x = lowerChar p then stripPrefixCI ps xs else none

/-- Models `commandText.match(/^change wake word to (.+)/i)`: returns the capture
group.  `.` does not match line terminators, and the pattern is not
end-anchored, so the capture is the maximal run of non-terminator
characters after the literal prefix, and must be non-empty. -/
def changeWakeWordRe (cmd : List Char) : Option (List Char) :=
  match stripPrefixCI "change wake word to ".data cmd with
  | none => none
  | some rest =>
    if (rest.takeWhile (fun c => !isNl c)).isEmpty then none
    else some (rest.takeWhile (fun c => !isNl c))

/-- Tail of the auto-stop pattern: whitespace-star, then `second`, then an
optional `s`, then end of string (case-insensitive). -/
def autoStopTail (r : List Char) : Bool :=
  match stripPrefixCI "second".data (r.dropWhile jsWs) with
  | none => false
  | some r2 =>
    match r2 with
    | [] => true
    | [c] => lowerChar c = 's'
    | _ => false

/-- The value alternation `(\d+|off)` followed by the tail. -/
def autoStopValue (r : List Char) : Option Nat :=
  let ds := r.takeWhile Char.isDigit
  if ds.isEmpty then
    match stripPrefixCI "off".data r with
    | some r' => if autoStopTail r' then some 0 else none
    | none => none
  else if autoStopTail (r.drop ds.length) then some (natOfDigits ds) else none

/-- One branch of the optional group `(?:to|on)?`. -/
def autoStopAfterGroup : Option (List Char) → Option Nat
  | none => none
  | some r => autoStopValue (r.dropWhile jsWs)

/-- Models the second pattern,
`commandText.match(/^(?:set|turn) auto-stop (?:to|on)?\s*(\d+|off)\s*seconds?$/i)`:
returns the parsed duration (`off` gives `0` via
`parseInt('off')`-avoiding branch in the source). -/
def setAutoStopRe (cmd : List Char) : Option Nat :=
  let rest0 :=
    match stripPrefixCI "set auto-stop ".data cmd with
    | some r => some r
    | none => stripPrefixCI "turn auto-stop ".data cmd
  match rest0 with
  | none => none
  | some r =>
    match autoStopAfterGroup (stripPrefixCI "to".data r) with
    | some d => some d
    | none =>
      match autoStopAfterGroup (stripPrefixCI "on".data r) with
      | some d => some d
      | none => autoStopAfterGroup (some r)

/-! ### Application state and the recognition-side event handlers

The mutable pieces of component state and refs that the voice subsystem
reads and writes, together with an append-only log of the imperative
actions the handlers perform on their collaborators (recognition sessions,
speech synthesis, chat submission, timers). -/

inductive Ev where
  | stopRec
  | startRec
  | chime
  | submit (msg : String)
  | speakFb (msg : String)
  | dismissTimer
  | cancelSynth
  | monologueContinue
  deriving DecidableEq, Repr

structure AppState where
  isNonStopMode : Bool := false
  isNtspMode : Bool := false
  isAwaitingCommand : Bool := false
  userStopped : Bool := false
  isListening : Bool := false
  inactivityArmed : Bool := false
  hasMessages : Bool := true
  wakeWord : String := "Jura"
  autoStopDuration : Nat := 0
  inputValue : String := ""
  speechError : Option String := none
  voiceCommandFeedback : Option String := none
  events : List Ev := []
  deriving DecidableEq, Repr

def initState : AppState := {}

/-- Fixed delays used by the controller (milliseconds). -/
def inactivityDelayMs : Nat := 20000
def restartDelayMs : Nat := 100
def feedbackDismissMs : Nat := 4000

def inactivityNotice : String :=
  "Non-stop mode paused due to inactivity. Click the mic to resume."

/-- Source function `handleInactivityTimeout`, guarded by the timer actually being armed:
the body runs only when the one-shot timeout fires, which also consumes
the timer slot. -/
def inactivityFire (s : AppState) : AppState :=
  if s.inactivityArmed then
    let s1 := { s with inactivityArmed := false }
    if s1.isNonStopMode then
      { s1 with
        isNonStopMode := false
        userStopped := true
        events := s1.events ++ [Ev.stopRec]
        speechError := some inactivityNotice }
    else s1
  else s

/-- Handler `recognition.onstart`: clears the user-stop flag, marks listening, and
(re)arms the inactivity timer when NonStop mode is active
(`startInactivityTimer`). -/
def recOnStart (s : AppState) : AppState :=
  { s with
    userStopped := false
    isListening := true
    inactivityArmed := s.isNonStopMode }

/-- Handler `recognition.onend` followed by the 100 ms restart timer, with no
intervening events: schedules a restart exactly when NonStop mode is active
and the stop was not user-requested, and the delayed callback re-checks the
same flags (plus not-already-listening) before calling `start()`. -/
def recOnEndThenTimer (s : AppState) : AppState :=
  let s1 := { s with isListening := false }
  if s1.isNonStopMode && !s1.userStopped then
    if s1.isNonStopMode && !s1.userStopped && !s1.isListening then
      { s1 with events := s1.events ++ [Ev.startRec] }
    else s1
  else s1

def ntspStartPrompt : String :=
  "Start a monologue about the intersection of technology, creativity, and the future of digital products."

/-- Voice command processing after a wake-word match
(src/index.tsx lines 519-542). -/
def processCommand (cmd : String) (s : AppState) : AppState :=
  match changeWakeWordRe cmd.data with
  | some cap =>
    let nw : String := String.mk (jsTrim cap)
    let feedback : String := "Okay, I'll respond to \"" ++ nw ++ "\" from now on."
    { s with
      wakeWord := nw
      voiceCommandFeedback := some feedback
      events := s.events ++ [Ev.speakFb feedback, Ev.dismissTimer] }
  | none =>
    match setAutoStopRe cmd.data with
    | some d =>
      let feedback : String :=
        "Auto-stop has been " ++
          (if d > 0 then "set to " ++ toString d ++ " seconds" else "turned off") ++ "."
      { s with
        autoStopDuration := d
        voiceCommandFeedback := some feedback
        events := s.events ++ [Ev.speakFb feedback, Ev.dismissTimer] }
    | none =>
      if cmd ≠ "" then
        { s with userStopped := true, events := s.events ++ [Ev.stopRec, Ev.submit cmd] }
      else
        { s with isAwaitingCommand := true }

/-- Handler `recognition.onresult` (src/index.tsx lines 488-554), parametrised by
the interim transcript and the concatenated final transcript of the event. -/
def recOnResult (interim finalRaw : String) (s : AppState) : AppState :=
  let s0 := { s with inactivityArmed := false }
  let finalT : String := String.mk (jsTrim finalRaw.data)
  if s0.isNonStopMode then
    if s0.isAwaitingCommand then
      let s1 := { s0 with inputValue := interim }
      if finalT ≠ "" then
        { s1 with
          userStopped := true
          inputValue := ""
          isAwaitingCommand := false
          events := s1.events ++ [Ev.stopRec, Ev.submit finalT] }
      else s1
    else
      match wakeMatchL s0.wakeWord.data finalT.data with
      | some (i, n) =>
        let cmd : String := String.mk (jsTrim (finalT.data.drop (i + n)))
        processCommand cmd { s0 with events := s0.events ++ [Ev.chime] }
      | none => s0
  else
    let s1 := { s0 with inputValue := interim }
    if finalT ≠ "" then
      { s1 with
        userStopped := true
        inputValue := ""
        events := s1.events ++ [Ev.stopRec, Ev.submit finalT] }
    else s1

inductive RecErr where
  | network
  | noSpeech
  | notAllowed
  | serviceNotAllowed
  | audioCapture
  | badGrammar
  | languageNotSupported
  | other
  deriving DecidableEq, Repr

def recErrMsg : RecErr → String
  | RecErr.network =>
    "Network error during speech recognition. Please check your internet connection."
  | RecErr.noSpeech =>
    "No speech was detected. Please ensure your microphone is unmuted and try again."
  | RecErr.notAllowed =>
    "Microphone access denied. To use voice input, please allow microphone permissions in your browser settings for this site."
  | RecErr.serviceNotAllowed =>
    "Microphone access denied. To use voice input, please allow microphone permissions in your browser settings for this site."
  | RecErr.audioCapture =>
    "No microphone was found. Please ensure your microphone is properly connected and enabled in your operating system settings."
  | RecErr.badGrammar =>
    "The speech recognition service could not understand your request. Please try speaking more clearly."
  | RecErr.languageNotSupported =>
    "The current language is not supported for speech recognition. Please select another language."
  | RecErr.other =>
    "An unexpected microphone error occurred. Refreshing the page may help."

/-- Handler `recognition.onerror` (src/index.tsx lines 556-591). -/
def recOnError (code : RecErr) (s : AppState) : AppState :=
  if code = RecErr.noSpeech && s.isNonStopMode then s
  else
    let s1 := { s with
      speechError := some (recErrMsg code)
      userStopped := true
      isAwaitingCommand := false }
    let s2 := if s1.isListening then { s1 with events := s1.events ++ [Ev.stopRec] } else s1
    if s2.isNonStopMode then { s2 with isNonStopMode := false } else s2

/-- Source function `toggleNtspMode` (src/index.tsx lines 697-729).  UI-only state (nav,
image studio, article writer, exploring flag) is not modelled. -/
def toggleNtspMode (s : AppState) : AppState :=
  let willBeActive := !s.isNtspMode
  if willBeActive then
    let s1 :=
      if s.isNonStopMode then
        { s with
          inactivityArmed := false
          isNonStopMode := false
          userStopped := true
          events := s.events ++ [Ev.stopRec] }
      else s
    let s2 := if s.isListening then { s1 with events := s1.events ++ [Ev.stopRec] } else s1
    let s3 := { s2 with isAwaitingCommand := false, isNtspMode := true }
    if s3.hasMessages then { s3 with events := s3.events ++ [Ev.monologueContinue] }
    else { s3 with events := s3.events ++ [Ev.submit ntspStartPrompt] }
  else
    { s with isNtspMode := false, events := s.events ++ [Ev.cancelSynth] }

/-- Source function `toggleNonStopMode` (src/index.tsx lines 1026-1047).  `newMode` is
computed from the closure's `isNonStopMode`, i.e. the value before the
possible `toggleNtspMode` call. -/
def toggleNonStopMode (s : AppState) : AppState :=
  let s1 := if s.isNtspMode then toggleNtspMode s else s
  let s2 := { s1 with speechError := none }
  let newMode := !s.isNonStopMode
  let s3 := { s2 with isAwaitingCommand := false }
  if newMode then
    { s3 with
      isNonStopMode := true
      userStopped := false
      events := s3.events ++ [Ev.startRec] }
  else
    { s3 with
      inactivityArmed := false
      isNonStopMode := false
      userStopped := true
      events := s3.events ++ [Ev.stopRec, Ev.cancelSynth] }

/-- The wake-word input field (src/index.tsx line 1680):
`onChange={(e) => setWakeWord(e.target.value)}`. -/
def wakeWordInputChange (v : String) (s : AppState) : AppState :=
  { s with wakeWord := v }

/-! ### The speech output controller

`speakText` (src/index.tsx lines 822-858).  The platform keeps at most one
utterance in flight here because every unmuted call first runs
`window.speechSynthesis.cancel()`.  Cancelling an in-flight utterance makes
the platform fire its `end`/`error` event, and the code installs the same
`cleanupSpeech` on both, so cancellation runs the utterance's completion
callback — behaviour the auto-stop timer (lines 844-848) depends on.
Utterances are identified by the order of the `speakText` calls that
created them; `completions` records, in order, the utterances whose
completion callback has run. -/

/-- Models the first replace on `textToSpeak`, which deletes `**` marker
pairs:
each occurrence of two consecutive asterisks is removed, left to right. -/
def removeBoldMarks : List Char → List Char
  | '*' :: '*' :: rest => removeBoldMarks rest
  | c :: rest => c :: removeBoldMarks rest
  | [] => []

def trailingPhrase : String := "Book a call with PRITYAA379."

/-- Models the second replace, end-anchored on the fixed phrase: drop the fixed
trailing phrase when present (end-anchored, case-sensitive). -/
def removeTrailingPhrase (l : List Char) : List Char :=
  if trailingPhrase.data.isSuffixOf l then l.take (l.length - trailingPhrase.data.length)
  else l

def cleanTextOf (t : String) : List Char :=
  removeTrailingPhrase (removeBoldMarks t.data)

structure SynthState where
  nextId : Nat := 0
  current : Option Nat := none
  completions : List Nat := []
  deriving DecidableEq, Repr

def synthInit : SynthState := {}

/-- Models `window.speechSynthesis.cancel()`: the in-flight utterance, if any,
receives its terminal event and `cleanupSpeech` runs its callback. -/
def synthCancel (s : SynthState) : SynthState :=
  match s.current with
  | some u => { s with current := none, completions := s.completions ++ [u] }
  | none => s

inductive SynthOp where
  | speak (muted : Bool) (text : String) (voices : Nat)
  | terminal
  deriving DecidableEq, Repr

/-- One step of the speech output controller.  `speak` is a `speakText`
call (the new utterance gets id `nextId`); `terminal` is the platform's
`end` or `error` event for the in-flight utterance — `cleanupSpeech` is
installed on both, so they are indistinguishable here. -/
def synthStep (op : SynthOp) (s : SynthState) : SynthState :=
  match op with
  | SynthOp.speak muted text voices =>
    let id := s.nextId
    if muted then
      { s with nextId := id + 1, completions := s.completions ++ [id] }
    else
      let s1 := synthCancel { s with nextId := id + 1 }
      if !(cleanTextOf text).isEmpty && voices > 0 then
        { s1 with current := some id }
      else
        { s1 with completions := s1.completions ++ [id] }
  | SynthOp.terminal => synthCancel s

def runSynth (ops : List SynthOp) (s : SynthState) : SynthState :=
  ops.foldl (fun s op => synthStep op s) s

/-- Invariant of reachable synthesis states: utterance ids are allocated in
order, so ids at or above `nextId` are fresh. -/
def SynthInv (s : SynthState) : Prop :=
  (∀ i ∈ s.completions, i < s.nextId) ∧ (∀ c, s.current = some c → c < s.nextId)

/-- Utterance `id` is in flight and its completion callback has not run. -/
def UttActive (id : Nat) (s : SynthState) : Prop :=
  id < s.nextId ∧ s.current = some id ∧ s.completions.count id = 0

/-- Utterance `id` is finished and its completion callback has run exactly
once. -/
def UttDone (id : Nat) (s : SynthState) : Prop :=
  id < s.nextId ∧ s.current ≠ some id ∧ s.completions.count id = 1

/-! ## Theorems -/

theorem count_append_one {l : List Nat} {a b : Nat} :
    (l ++ [b]).count a = l.count a + if b = a then 1 else 0 := by
  simp [List.count_append, List.count_singleton']

/-- The cancelled-utterance completion recorded by `synthCancel`. -/
def cancelLog (s : SynthState) : List Nat :=
  match s.current with
  | some u => [u]
  | none => []

theorem synthStep_speak_muted (s : SynthState) (t : String) (v : Nat) :
    synthStep (SynthOp.speak true t v) s =
      { s with nextId := s.nextId + 1, completions := s.completions ++ [s.nextId] } := by
  simp [synthStep]

theorem synthStep_speak_started (s : SynthState) (t : String) (v : Nat)
    (hne : (!(cleanTextOf t).isEmpty && decide (v > 0)) = true) :
    synthStep (SynthOp.speak false t v) s =
      { nextId := s.nextId + 1, current := some s.nextId,
        completions := s.completions ++ cancelLog s } := by
  obtain ⟨ni, cur, comp⟩ := s
  cases cur <;> simp [synthStep, synthCancel, cancelLog, hne]

theorem synthStep_speak_bypass (s : SynthState) (t : String) (v : Nat)
    (hne : (!(cleanTextOf t).isEmpty && decide (v > 0)) = false) :
    synthStep (SynthOp.speak false t v) s =
      { nextId := s.nextId + 1, current := none,
        completions := (s.completions ++ cancelLog s) ++ [s.nextId] } := by
  obtain ⟨ni, cur, comp⟩ := s
  cases cur <;> simp [synthStep, synthCancel, cancelLog, hne]

theorem synthStep_terminal (s : SynthState) :
    synthStep SynthOp.terminal s =
      { nextId := s.nextId, current := none,
        completions := s.completions ++ cancelLog s } := by
  obtain ⟨ni, cur, comp⟩ := s
  cases cur <;> simp [synthStep, synthCancel, cancelLog]

theorem count_cancelLog_of_ne {s : SynthState} {id : Nat} (h : s.current ≠ some id) :
    (cancelLog s).count id = 0 := by
  cases hc : s.current with
  | none => simp [cancelLog, hc]
  | some u =>
    have : u ≠ id := fun he => h (he ▸ hc)
    simp [cancelLog, hc, List.count_singleton', this]

theorem uttDone_step {id : Nat} {s : SynthState} (op : SynthOp)
    (h : UttDone id s) : UttDone id (synthStep op s) := by
  obtain ⟨hlt, hcur, hcount⟩ := h
  have hclog : (cancelLog s).count id = 0 := count_cancelLog_of_ne hcur
  have hne2 : s.nextId ≠ id := by omega
  cases op with
  | speak muted text voices =>
    cases muted with
    | true =>
      rw [synthStep_speak_muted]
      refine ⟨by dsimp only; omega, by simpa using hcur, ?_⟩
      dsimp only
      simp [List.count_append, List.count_singleton', hcount, hne2]
    | false =>
      rcases hb : (!(cleanTextOf text).isEmpty && decide (voices > 0)) with _ | _
      · rw [synthStep_speak_bypass s text voices hb]
        refine ⟨by dsimp only; omega, by simp, ?_⟩
        dsimp only
        simp [List.count_append, List.count_singleton', hcount, hclog, hne2]
      · rw [synthStep_speak_started s text voices hb]
        refine ⟨by dsimp only; omega, by dsimp only; simp; omega, ?_⟩
        dsimp only
        simp [List.count_append, hcount, hclog]
  | terminal =>
    rw [synthStep_terminal]
    refine ⟨by simpa using hlt, by simp, ?_⟩
    dsimp only
    simp [List.count_append, hcount, hclog]

theorem uttActive_step {id : Nat} {s : SynthState} (op : SynthOp)
    (h : UttActive id s) : UttActive id (synthStep op s) ∨ UttDone id (synthStep op s) := by
  obtain ⟨hlt, hcur, hcount⟩ := h
  have hclog : (cancelLog s).count id = 1 := by
    simp [cancelLog, hcur, List.count_singleton']
  have hne2 : s.nextId ≠ id := by omega
  cases op with
  | speak muted text voices =>
    cases muted with
    | true =>
      left
      rw [synthStep_speak_muted]
      refine ⟨by dsimp only; omega, by simpa using hcur, ?_⟩
      dsimp only
      simp [List.count_append, List.count_singleton', hcount, hne2]
    | false =>
      right
      rcases hb : (!(cleanTextOf text).isEmpty && decide (voices > 0)) with _ | _
      · rw [synthStep_speak_bypass s text voices hb]
        refine ⟨by dsimp only; omega, by simp, ?_⟩
        dsimp only
        simp [List.count_append, List.count_singleton', hcount, hclog, hne2]
      · rw [synthStep_speak_started s text voices hb]
        refine ⟨by dsimp only; omega, by dsimp only; simp; omega, ?_⟩
        dsimp only
        simp [List.count_append, hcount, hclog]
  | terminal =>
    right
    rw [synthStep_terminal]
    refine ⟨by simpa using hlt, by simp, ?_⟩
    dsimp only
    simp [List.count_append, hcount, hclog]

theorem uttState_run {id : Nat} {s : SynthState} (ops : List SynthOp)
    (h : UttActive id s ∨ UttDone id s) :
    UttActive id (runSynth ops s) ∨ UttDone id (runSynth ops s) := by
  induction ops generalizing s with
  | nil => exact h
  | cons op ops ih =>
    have h1 : UttActive id (synthStep op s) ∨ UttDone id (synthStep op s) := by
      cases h with
      | inl ha => exact uttActive_step op ha
      | inr hd => exact Or.inr (uttDone_step op hd)
    exact ih h1

theorem uttDone_run {id : Nat} {s : SynthState} (ops : List SynthOp)
    (h : UttDone id s) : UttDone id (runSynth ops s) := by
  induction ops generalizing s with
  | nil => exact h
  | cons op ops ih => exact ih (uttDone_step op h)

theorem synthInv_count_zero {id : Nat} {s : SynthState} (hinv : SynthInv s)
    (hid : s.nextId ≤ id) : s.completions.count id = 0 := by
  refine List.count_eq_zero.mpr (fun hmem => ?_)
  have := hinv.1 id hmem
  omega

/-- After any `speakText` call with a fresh id, the new utterance is either
still active with an unfired callback, or finished with the callback having
run exactly once. -/
theorem speak_state_dichotomy {s : SynthState} (m : Bool) (t : String) (v : Nat)
    (hinv : SynthInv s) :
    UttActive s.nextId (synthStep (SynthOp.speak m t v) s) ∨
      UttDone s.nextId (synthStep (SynthOp.speak m t v) s) := by
  have hc0 : s.completions.count s.nextId = 0 := synthInv_count_zero hinv (le_refl _)
  have hclog : (cancelLog s).count s.nextId = 0 := by
    cases hc : s.current with
    | none => simp [cancelLog, hc]
    | some u =>
      have hu : u ≠ s.nextId := fun he => by have := hinv.2 u hc; omega
      simp [cancelLog, hc, List.count_singleton', hu]
  cases m with
  | true =>
    right
    rw [synthStep_speak_muted]
    refine ⟨by dsimp only; omega, ?_, ?_⟩
    · dsimp only
      intro hcur
      have := hinv.2 _ hcur
      omega
    · dsimp only
      simp [List.count_append, List.count_singleton', hc0]
  | false =>
    rcases hb : (!(cleanTextOf t).isEmpty && decide (v > 0)) with _ | _
    · right
      rw [synthStep_speak_bypass s t v hb]
      refine ⟨by dsimp only; omega, by simp, ?_⟩
      dsimp only
      simp [List.count_append, List.count_singleton', hc0, hclog]
    · left
      rw [synthStep_speak_started s t v hb]
      refine ⟨by dsimp only; omega, by simp, ?_⟩
      dsimp only
      simp [List.count_append, hc0, hclog]

/-- Claim C4 (counterexample).  The claim states that when `speak(A, cbA)`
is followed by `speak(B, cbB)` before A completes, `cbA` is never invoked.
In the code, the unmuted `speakText` call runs
`window.speechSynthesis.cancel()` first, which fires the preempted
utterance's terminal event, and `cleanupSpeech` — installed as both
`onend` and `onerror` — runs A's completion callback.  Concretely:
utterance 0 (A) is preempted by utterance 1 (B) and both callbacks run
exactly once, so "cbA is never invoked" is false. -/
theorem speak_preemption_counterexample :
    (runSynth [SynthOp.speak false "Hello A" 1, SynthOp.speak false "Hello B" 1,
        SynthOp.terminal] synthInit).completions = [0, 1] ∧
    (runSynth [SynthOp.speak false "Hello A" 1, SynthOp.speak false "Hello B" 1,
        SynthOp.terminal] synthInit).completions.count 0 = 1 := by
  constructor <;> rfl

/-- Claim C4 (amended).  If `speak(A, cbA)` started utterance A and
`speak(B, cbB)` is called (unmuted, non-empty cleaned text, voices loaded)
before A completes, then the new utterance preempts the old one — nothing
is queued, B is immediately the only utterance in flight — `cbA` runs
exactly once, at preemption time, and `cbB` runs exactly once, when B's
terminal event arrives. -/
theorem speak_preemption_amended (s : SynthState) (a : Nat) (t : String) (v : Nat)
    (hinv : SynthInv s) (hcur : s.current = some a)
    (hcount : s.completions.count a = 0)
    (hne : (!(cleanTextOf t).isEmpty && decide (v > 0)) = true) :
    (synthStep (SynthOp.speak false t v) s).completions.count a = 1 ∧
    (synthStep (SynthOp.speak false t v) s).completions.count s.nextId = 0 ∧
    (synthStep (SynthOp.speak false t v) s).current = some s.nextId ∧
    (synthStep SynthOp.terminal (synthStep (SynthOp.speak false t v) s)).completions.count s.nextId = 1 ∧
    (synthStep SynthOp.terminal (synthStep (SynthOp.speak false t v) s)).completions.count a = 1 := by
  have ha : a < s.nextId := hinv.2 a hcur
  have hclog : (cancelLog s).count a = 1 := by
    simp [cancelLog, hcur, List.count_singleton']
  have hc0 : s.completions.count s.nextId = 0 := synthInv_count_zero hinv (le_refl _)
  have hclog0 : (cancelLog s).count s.nextId = 0 := by
    have hu : a ≠ s.nextId := by omega
    simp [cancelLog, hcur, List.count_singleton', hu]
  rw [synthStep_speak_started s t v hne, synthStep_terminal]
  dsimp only
  refine ⟨?_, ?_, rfl, ?_, ?_⟩
  · simp [List.count_append, hcount, hclog]
  · simp [List.count_append, hc0, hclog0]
  · have hu : a ≠ s.nextId := by omega
    simp [cancelLog, hcur, List.count_append, List.count_singleton', hc0, hu]
  · have hu : s.nextId ≠ a := by omega
    simp [cancelLog, hcur, List.count_append, List.count_singleton', hcount, hu]

/-- Claim C4 (amended, witness): the preemption scenario at concrete
inputs, from the initial synthesis state after starting utterance A. -/
theorem speak_preemption_amended_witness :
    (synthStep (SynthOp.speak false "B" 1)
        (synthStep (SynthOp.speak false "A" 1) synthInit)).completions.count 0 = 1 :=
  (speak_preemption_amended
    ({ nextId := 1, current := some 0, completions := [] } : SynthState) 0 "B" 1
    ⟨fun i hi => by simp at hi, fun c hc => by simp at hc ⊢; omega⟩
    rfl rfl (by decide)).1

/-- Claim C6.  For every single `speak(text, onComplete)` call, the
completion callback runs at most once ever, and exactly once as soon as the
utterance created by the call is no longer in flight — which covers the
muted bypass, the empty-text/no-voices bypass, normal end, synthesis error,
and preemption by a later call, uniformly. -/
theorem speak_onComplete_exactly_once (s : SynthState) (m : Bool) (t : String)
    (v : Nat) (ops : List SynthOp) (hinv : SynthInv s) :
    (runSynth ops (synthStep (SynthOp.speak m t v) s)).completions.count s.nextId ≤ 1 ∧
    ((runSynth ops (synthStep (SynthOp.speak m t v) s)).current ≠ some s.nextId →
      (runSynth ops (synthStep (SynthOp.speak m t v) s)).completions.count s.nextId = 1) := by
  have h := @uttState_run s.nextId (synthStep (SynthOp.speak m t v) s) ops (speak_state_dichotomy m t v hinv)
  cases h with
  | inl ha =>
    refine ⟨by rw [ha.2.2]; omega, fun hcur => absurd ha.2.1 hcur⟩
  | inr hd =>
    refine ⟨by rw [hd.2.2], fun _ => hd.2.2⟩

/-- Claim C6 (witness): a concrete call whose utterance ends normally; the
callback has then run exactly once. -/
theorem speak_onComplete_exactly_once_witness :
    (runSynth [SynthOp.terminal] (synthStep (SynthOp.speak false "Hi" 1) synthInit)).completions.count 0 = 1 :=
  (speak_onComplete_exactly_once synthInit false "Hi" 1 [SynthOp.terminal]
    ⟨fun i hi => by simp [synthInit] at hi, fun c hc => by simp [synthInit] at hc⟩).2
    (by decide)

/-- Claim C10 (counterexample).  The claim says that an unmuted `speak`
call with empty cleaned text causes "no playback state change".  But the
code runs `window.speechSynthesis.cancel()` before the emptiness check, so
an utterance that was playing is cancelled (and its completion callback
fires): after starting utterance 0 and then calling `speak` with text that
is empty once the markers are stripped, utterance 0 is no longer current
and its callback has run. -/
theorem speak_empty_bypass_counterexample :
    (synthStep (SynthOp.speak false "A" 1) synthInit).current = some 0 ∧
    (synthStep (SynthOp.speak false "**" 5)
        (synthStep (SynthOp.speak false "A" 1) synthInit)).current = none ∧
    (synthStep (SynthOp.speak false "**" 5)
        (synthStep (SynthOp.speak false "A" 1) synthInit)).completions = [0, 1] := by
  refine ⟨rfl, rfl, rfl⟩

/-- Claim C10 (amended).  If `speak(text, onComplete)` is called unmuted
and the text is empty after stripping the markdown markers and the trailing
phrase, or no voices are loaded, then `onComplete` runs immediately and no
utterance is ever started for this call — it is never in flight, then or
later, and its callback never runs again; however a previously playing
utterance is still cancelled first (with its own callback firing), since
the cancel precedes the emptiness check. -/
theorem speak_empty_bypass_amended (s : SynthState) (t : String) (v : Nat)
    (ops : List SynthOp) (hinv : SynthInv s)
    (hempty : (!(cleanTextOf t).isEmpty && decide (v > 0)) = false) :
    (synthStep (SynthOp.speak false t v) s).completions.count s.nextId = 1 ∧
    (synthStep (SynthOp.speak false t v) s).current = none ∧
    (runSynth ops (synthStep (SynthOp.speak false t v) s)).completions.count s.nextId = 1 ∧
    (runSynth ops (synthStep (SynthOp.speak false t v) s)).current ≠ some s.nextId := by
  have hc0 : s.completions.count s.nextId = 0 := synthInv_count_zero hinv (le_refl _)
  have hclog : (cancelLog s).count s.nextId = 0 := by
    cases hc : s.current with
    | none => simp [cancelLog, hc]
    | some u =>
      have hu : u ≠ s.nextId := fun he => by have := hinv.2 u hc; omega
      simp [cancelLog, hc, List.count_singleton', hu]
  have hdone : UttDone s.nextId (synthStep (SynthOp.speak false t v) s) := by
    rw [synthStep_speak_bypass s t v hempty]
    refine ⟨by dsimp only; omega, by simp, ?_⟩
    dsimp only
    simp [List.count_append, List.count_singleton', hc0, hclog]
  have hrun := uttDone_run ops hdone
  exact ⟨hdone.2.2, by rw [synthStep_speak_bypass s t v hempty], hrun.2.2, hrun.2.1⟩

/-- Claim C10 (amended, witness): concrete bypass call on the initial
state; the callback runs once immediately and the utterance never starts. -/
theorem speak_empty_bypass_amended_witness :
    (synthStep (SynthOp.speak false "**" 5) synthInit).completions.count 0 = 1 ∧
    (synthStep (SynthOp.speak false "**" 5) synthInit).current = none :=
  ⟨(speak_empty_bypass_amended synthInit "**" 5 []
      ⟨fun i hi => by simp [synthInit] at hi, fun c hc => by simp [synthInit] at hc⟩
      (by decide)).1,
   (speak_empty_bypass_amended synthInit "**" 5 []
      ⟨fun i hi => by simp [synthInit] at hi, fun c hc => by simp [synthInit] at hc⟩
      (by decide)).2.1⟩

theorem processCommand_inactivityArmed (cmd : String) (s : AppState) :
    (processCommand cmd s).inactivityArmed = s.inactivityArmed := by
  unfold processCommand
  split
  · rfl
  · split
    · rfl
    · split <;> rfl

theorem recOnResult_inactivityArmed (it fi : String) (s : AppState) :
    (recOnResult it fi s).inactivityArmed = false := by
  unfold recOnResult
  dsimp only
  split
  · split
    · split <;> rfl
    · split
      · rw [processCommand_inactivityArmed]
      · rfl
  · split <;> rfl

/-- Claim C3 (counterexample).  The claim says the inactivity timer is
re-armed on every partial or final transcript event.  In the code,
`recognition.onresult` only calls `clearInactivityTimer()` and never
re-arms; the timer is armed only in `recognition.onstart`.  Concretely:
after a session starts in NonStop mode the timer is armed, and after one
partial transcript event it is cleared and left unarmed, so 20 further
silent seconds would not fire it. -/
theorem inactivity_rearm_counterexample :
    (recOnStart { initState with isNonStopMode := true }).inactivityArmed = true ∧
    (recOnResult "hello" "" (recOnStart { initState with isNonStopMode := true })).inactivityArmed
      = false := by
  constructor <;> rfl

/-- Claim C3 (amended).  While NonStop mode is active the inactivity timer
has a fixed 20-second deadline and is armed when the recognition session
starts; every partial or final transcript event cancels it without
re-arming it.  If it is still armed when the deadline passes, it fires
exactly once (a second firing is a no-op), exiting NonStop mode, setting
the user-stop flag, stopping the recognition session and surfacing the
paused-due-to-inactivity notice. -/
theorem inactivity_timer_amended :
    inactivityDelayMs = 20000 ∧
    (∀ s : AppState, (recOnStart s).inactivityArmed = s.isNonStopMode) ∧
    (∀ (s : AppState) (it fi : String), (recOnResult it fi s).inactivityArmed = false) ∧
    (∀ s : AppState, s.inactivityArmed = true → s.isNonStopMode = true →
      (inactivityFire s).isNonStopMode = false ∧
      (inactivityFire s).userStopped = true ∧
      (inactivityFire s).speechError = some inactivityNotice ∧
      (inactivityFire s).events = s.events ++ [Ev.stopRec]) ∧
    (∀ s : AppState, inactivityFire (inactivityFire s) = inactivityFire s) := by
  refine ⟨rfl, fun s => rfl, fun s it fi => recOnResult_inactivityArmed it fi s, ?_, ?_⟩
  · intro s harm hns
    simp [inactivityFire, harm, hns]
  · intro s
    by_cases h1 : s.inactivityArmed
    · by_cases h2 : s.isNonStopMode
      · simp [inactivityFire, h1, h2]
      · simp [inactivityFire, h1, h2]
    · simp [inactivityFire, h1]

/-- Claim C3 (amended, witness): from a started NonStop session, the armed
timer fires and pauses NonStop mode with the notice. -/
theorem inactivity_timer_amended_witness :
    (inactivityFire (recOnStart { initState with isNonStopMode := true })).isNonStopMode = false ∧
    (inactivityFire (recOnStart { initState with isNonStopMode := true })).speechError =
      some inactivityNotice :=
  ⟨(inactivity_timer_amended.2.2.2.1 (recOnStart { initState with isNonStopMode := true })
      rfl rfl).1,
   (inactivity_timer_amended.2.2.2.1 (recOnStart { initState with isNonStopMode := true })
      rfl rfl).2.2.1⟩

/-- Claim C2.  "set auto-stop to 15 seconds" sets the duration to 15 and
emits a spoken plus on-screen confirmation (with dismiss timer) instead of
submitting a message.  The claim also says "turn auto-stop off" sets the
duration to 0; the code's regular expression demands a trailing
"second(s)" even in the `off` form, so "turn auto-stop off" fails to parse
and is submitted as a chat message instead, leaving the duration
unchanged — the `off` alternative in the pattern shows this is a slip, not
intent. -/
theorem autoStop_command_behavior :
    (processCommand "set auto-stop to 15 seconds" initState).autoStopDuration = 15 ∧
    (processCommand "set auto-stop to 15 seconds" initState).voiceCommandFeedback =
      some "Auto-stop has been set to 15 seconds." ∧
    (processCommand "set auto-stop to 15 seconds" initState).events =
      [Ev.speakFb "Auto-stop has been set to 15 seconds.", Ev.dismissTimer] ∧
    (processCommand "turn auto-stop off" { initState with autoStopDuration := 15 }).autoStopDuration
      = 15 ∧
    (processCommand "turn auto-stop off" { initState with autoStopDuration := 15 }).voiceCommandFeedback
      = none ∧
    (processCommand "turn auto-stop off" { initState with autoStopDuration := 15 }).events =
      [Ev.stopRec, Ev.submit "turn auto-stop off"] := by
  refine ⟨?_, ?_, ?_, ?_, ?_, ?_⟩ <;> rfl

/-- Claim C5.  A `no-speech` recognition error while NonStop mode is active
changes nothing (the handler returns before touching any state and surfaces
no message); every other error code sets the user-requested-stop flag,
leaves NonStop mode off, and surfaces the fixed message for that code. -/
theorem recognition_error_policy :
    (∀ s : AppState, s.isNonStopMode = true → recOnError RecErr.noSpeech s = s) ∧
    (∀ (code : RecErr) (s : AppState), code ≠ RecErr.noSpeech →
      (recOnError code s).userStopped = true ∧
      (recOnError code s).isNonStopMode = false ∧
      (recOnError code s).speechError = some (recErrMsg code)) := by
  constructor
  · intro s h
    simp [recOnError, h]
  · intro code s h
    have hb : (decide (code = RecErr.noSpeech) && s.isNonStopMode) = false := by
      simp [h]
    refine ⟨?_, ?_, ?_⟩ <;>
      simp only [recOnError, hb, Bool.false_eq_true, if_false] <;>
      split_ifs <;> simp_all

/-- Claim C5 (witness): `no-speech` in NonStop mode is swallowed; a
`network` error sets the stop flag. -/
theorem recognition_error_policy_witness :
    recOnError RecErr.noSpeech { initState with isNonStopMode := true } =
      { initState with isNonStopMode := true } ∧
    (recOnError RecErr.network initState).userStopped = true :=
  ⟨recognition_error_policy.1 { initState with isNonStopMode := true } rfl,
   (recognition_error_policy.2 RecErr.network initState (by decide)).1⟩

/-- Claim C7.  When the session-end event arrives and the 100 ms restart
timer then runs with no intervening events, a `start()` call is issued
exactly when NonStop mode is active and the stop was not user- or
error-initiated (tracked in the shared flag); otherwise the session stays
stopped. -/
theorem onend_restart_policy (s : AppState) :
    (recOnEndThenTimer s).events =
      s.events ++ (if s.isNonStopMode && !s.userStopped then [Ev.startRec] else []) ∧
    (recOnEndThenTimer s).isListening = false ∧
    restartDelayMs = 100 := by
  refine ⟨?_, ?_, rfl⟩
  · simp only [recOnEndThenTimer]
    by_cases h : (s.isNonStopMode && !s.userStopped) = true
    · simp [h]
    · simp [h]
  · simp only [recOnEndThenTimer]
    by_cases h : (s.isNonStopMode && !s.userStopped) = true <;> simp [h]

/-- Claim C8.  NonStop and Monologue (NTSP) modes are mutually exclusive:
entering Monologue while NonStop is active first clears the inactivity
timer, exits NonStop, sets the stop flag and stops the recognition
session — all before the monologue continuation event; entering NonStop
while Monologue is active first exits Monologue; and neither toggle can
produce a state with both modes active. -/
theorem mode_mutual_exclusion :
    (∀ s : AppState, s.isNtspMode = false → s.isNonStopMode = true →
      (toggleNtspMode s).isNtspMode = true ∧
      (toggleNtspMode s).isNonStopMode = false ∧
      (toggleNtspMode s).inactivityArmed = false ∧
      (toggleNtspMode s).userStopped = true ∧
      (toggleNtspMode s).events =
        s.events ++ (Ev.stopRec :: (if s.isListening then [Ev.stopRec] else []) ++
          [if s.hasMessages then Ev.monologueContinue else Ev.submit ntspStartPrompt])) ∧
    (∀ s : AppState, s.isNtspMode = true → s.isNonStopMode = false →
      (toggleNonStopMode s).isNtspMode = false ∧
      (toggleNonStopMode s).isNonStopMode = true) ∧
    (∀ s : AppState, (s.isNtspMode && s.isNonStopMode) = false →
      ((toggleNtspMode s).isNtspMode && (toggleNtspMode s).isNonStopMode) = false ∧
      ((toggleNonStopMode s).isNtspMode && (toggleNonStopMode s).isNonStopMode) = false) := by
  refine ⟨?_, ?_, ?_⟩
  · intro s hn hns
    refine ⟨?_, ?_, ?_, ?_, ?_⟩ <;>
      simp only [toggleNtspMode, hn, hns] <;>
      by_cases hl : s.isListening <;> by_cases hm : s.hasMessages <;>
      simp [hl, hm]
  · intro s hn hns
    constructor <;>
      simp only [toggleNonStopMode, toggleNtspMode, hn, hns] <;>
      by_cases hm : s.hasMessages <;> simp [hm]
  · intro s hboth
    constructor
    · by_cases hn : s.isNtspMode
      · simp [toggleNtspMode, hn]
      · have hns' : s.isNonStopMode = true ∨ s.isNonStopMode = false := by
          cases s.isNonStopMode <;> simp
        by_cases hns : s.isNonStopMode <;>
          by_cases hl : s.isListening <;> by_cases hm : s.hasMessages <;>
          simp [toggleNtspMode, hn, hns, hl, hm]
    · by_cases hn : s.isNtspMode
      · have hns : s.isNonStopMode = false := by
          cases h2 : s.isNonStopMode
          · rfl
          · rw [hn, h2] at hboth
            simp at hboth
        simp only [toggleNonStopMode, toggleNtspMode, hn, hns]
        by_cases hm : s.hasMessages <;> simp [hm]
      · by_cases hns : s.isNonStopMode <;>
          simp [toggleNonStopMode, toggleNtspMode, hn, hns]

/-- Claim C8 (witness): the two mode switches at concrete states. -/
theorem mode_mutual_exclusion_witness :
    (toggleNtspMode { initState with isNonStopMode := true }).isNtspMode = true ∧
    (toggleNonStopMode { initState with isNtspMode := true }).isNonStopMode = true :=
  ⟨(mode_mutual_exclusion.1 { initState with isNonStopMode := true } rfl rfl).1,
   (mode_mutual_exclusion.2.1 { initState with isNtspMode := true } rfl rfl).2⟩

theorem dropWhile_length_eq {p : Char → Bool} {l : List Char}
    (h : (l.dropWhile p).length = l.length) : l.dropWhile p = l := by
  cases l with
  | nil => rfl
  | cons x xs =>
    by_cases hx : p x
    · exfalso
      rw [List.dropWhile_cons, if_pos hx] at h
      have hle2 : (xs.dropWhile p).length ≤ xs.length := (List.dropWhile_sublist _).length_le
      simp at h
      omega
    · rw [List.dropWhile_cons, if_neg hx]

theorem dropWhile_eq_self_head {p : Char → Bool} {l : List Char} {c : Char}
    (h : l.dropWhile p = l) (hc : l.head? = some c) : p c = false := by
  cases l with
  | nil => simp at hc
  | cons x xs =>
    have hxc : x = c := by simpa using hc
    subst hxc
    by_cases hx : p x
    · exfalso
      rw [List.dropWhile_cons, if_pos hx] at h
      have hle : (xs.dropWhile p).length ≤ xs.length := (List.dropWhile_sublist _).length_le
      have := congrArg List.length h
      simp at this
      omega
    · simpa using hx

theorem jsTrim_eq_self_last {l : List Char} {c : Char}
    (h : jsTrim l = l) (hc : l.getLast? = some c) : jsWs c = false := by
  have h1 : (l.dropWhile jsWs).length ≤ l.length :=
    (List.dropWhile_sublist jsWs).length_le
  have h2 : ((l.dropWhile jsWs).reverse.dropWhile jsWs).length ≤ (l.dropWhile jsWs).length := by
    have h0 : ((l.dropWhile jsWs).reverse.dropWhile jsWs).length ≤ (l.dropWhile jsWs).reverse.length :=
      (List.dropWhile_sublist _).length_le
    simpa using h0
  have hlen : (jsTrim l).length = l.length := by rw [h]
  have hlen2 : ((l.dropWhile jsWs).reverse.dropWhile jsWs).length = (jsTrim l).length := by
    simp [jsTrim]
  have hd1 : l.dropWhile jsWs = l := dropWhile_length_eq (by omega)
  have hd2 : (l.dropWhile jsWs).reverse.dropWhile jsWs = (l.dropWhile jsWs).reverse := by
    apply dropWhile_length_eq
    simp
    omega
  rw [hd1] at hd2
  exact dropWhile_eq_self_head hd2 (by rw [List.head?_reverse, hc])

theorem jsTrim_ne_nil_of_last {l : List Char} {c : Char}
    (hc : l.getLast? = some c) (hws : jsWs c = false) : jsTrim l ≠ [] := by
  have hmem : c ∈ l := List.mem_of_mem_getLast? hc
  have hd1ne : l.dropWhile jsWs ≠ [] := by
    intro he
    have := List.dropWhile_eq_nil_iff.mp he c hmem
    rw [hws] at this
    exact Bool.false_ne_true this
  have hsuf : l.dropWhile jsWs <:+ l := List.dropWhile_suffix jsWs
  obtain ⟨u, hu⟩ := hsuf
  have hlast : (l.dropWhile jsWs).getLast? = some c := by
    rw [← hu] at hc
    rwa [List.getLast?_append_of_ne_nil u hd1ne] at hc
  have hhead : (l.dropWhile jsWs).reverse.head? = some c := by
    rw [List.head?_reverse, hlast]
  have hdw : (l.dropWhile jsWs).reverse.dropWhile jsWs = (l.dropWhile jsWs).reverse := by
    cases hrev : (l.dropWhile jsWs).reverse with
    | nil => rfl
    | cons x xs =>
      rw [hrev] at hhead
      simp at hhead
      subst hhead
      simp [List.dropWhile_cons, hws]
  intro he
  rw [jsTrim, hdw] at he
  simp only [List.reverse_reverse] at he
  exact hd1ne he

theorem stripPrefixCI_suffix {p l r : List Char}
    (h : stripPrefixCI p l = some r) : ∃ u, l = u ++ r := by
  induction p generalizing l with
  | nil =>
    simp [stripPrefixCI] at h
    exact ⟨[], by simp [h]⟩
  | cons a as ih =>
    cases l with
    | nil => simp [stripPrefixCI] at h
    | cons x xs =>
      simp only [stripPrefixCI] at h
      split at h
      · obtain ⟨u, hu⟩ := ih h
        exact ⟨x :: u, by simp [hu]⟩
      · exact absurd h (by simp)

/-- Claim C9 (counterexample).  The claim says every operation that sets
the wake phrase preserves non-emptiness.  The wake-word input field
assigns the typed value verbatim (`setWakeWord(e.target.value)`), so
clearing the field sets the wake phrase to the empty string. -/
theorem wake_word_nonempty_counterexample :
    initState.wakeWord ≠ "" ∧ (wakeWordInputChange "" initState).wakeWord = "" := by
  refine ⟨by decide, rfl⟩

/-- Claim C9 (amended).  The "change wake word to X" voice command always
sets a non-empty wake phrase (given the command text the handler actually
receives: already trimmed, with no line terminators), but the wake-word
input field assigns the typed value verbatim, including the empty
string. -/
theorem wake_word_setters_amended :
    (∀ (v : String) (s : AppState), (wakeWordInputChange v s).wakeWord = v) ∧
    (∀ (cmd : String) (s : AppState),
      jsTrim cmd.data = cmd.data →
      (∀ c ∈ cmd.data, isNl c = false) →
      (changeWakeWordRe cmd.data).isSome →
      (processCommand cmd s).wakeWord ≠ "") := by
  refine ⟨fun v s => rfl, ?_⟩
  intro cmd s htrim hnl hmatch
  obtain ⟨cap, hcap⟩ := Option.isSome_iff_exists.mp hmatch
  obtain ⟨rest, hrest, hcapval, hne⟩ :
      ∃ rest, stripPrefixCI "change wake word to ".data cmd.data = some rest ∧
        cap = rest.takeWhile (fun c => !isNl c) ∧ cap.isEmpty = false := by
    unfold changeWakeWordRe at hcap
    split at hcap
    · exact absurd hcap (by simp)
    · rename_i rest' hmm
      split at hcap
      · exact absurd hcap (by simp)
      · rename_i hemp
        refine ⟨rest', hmm, ?_, ?_⟩
        · have := Option.some.inj hcap
          exact this.symm
        · simp only [Bool.not_eq_true] at hemp
          rw [← Option.some.inj hcap]
          exact hemp
  obtain ⟨u, hu⟩ := stripPrefixCI_suffix hrest
  have hallnl : ∀ c ∈ rest, (fun c => !isNl c) c = true := by
    intro c hc
    have : c ∈ cmd.data := by rw [hu]; exact List.mem_append_right u hc
    simp [hnl c this]
  have hcap_rest : cap = rest := by
    rw [hcapval, List.takeWhile_eq_self_iff.mpr hallnl]
  have hrestne : rest ≠ [] := by
    intro he
    rw [hcap_rest, he] at hne
    simp at hne
  have hlast : ∃ c, rest.getLast? = some c := by
    cases hr : rest.getLast? with
    | none => exact absurd (List.getLast?_eq_none_iff.mp hr) hrestne
    | some c => exact ⟨c, rfl⟩
  obtain ⟨c, hc⟩ := hlast
  have hcmdlast : cmd.data.getLast? = some c := by
    rw [hu, List.getLast?_append_of_ne_nil u hrestne, hc]
  have hws : jsWs c = false := jsTrim_eq_self_last htrim hcmdlast
  have htrimne : jsTrim rest ≠ [] := jsTrim_ne_nil_of_last hc hws
  have : (processCommand cmd s).wakeWord = String.mk (jsTrim cap) := by
    unfold processCommand
    rw [hcap]
  rw [this, hcap_rest]
  intro heq
  apply htrimne
  have := congrArg String.data heq
  simpa using this

/-- Claim C9 (amended, witness): the input field sets the value verbatim,
and the voice command "change wake word to Assistant" yields a non-empty
wake phrase. -/
theorem wake_word_setters_amended_witness :
    (wakeWordInputChange "Echo" initState).wakeWord = "Echo" ∧
    (processCommand "change wake word to Assistant" initState).wakeWord ≠ "" :=
  ⟨wake_word_setters_amended.1 "Echo" initState,
   wake_word_setters_amended.2 "change wake word to Assistant" initState
     (by decide) (by decide) (by decide)⟩

theorem lastOr_none (l : List Char) : lastOr l none = l.getLast? := by
  unfold lastOr
  cases h : l.getLast? <;> simp

theorem lastOr_cons (x : Char) (l : List Char) (p : Option Char) :
    lastOr (x :: l) p = lastOr l (some x) := by
  cases l with
  | nil => simp [lastOr]
  | cons y ys =>
    unfold lastOr
    rw [List.getLast?_cons_cons]
    cases h : (y :: ys).getLast? with
    | none => simp [List.getLast?_eq_none_iff] at h
    | some c => rfl

theorem matchStar_of_k (k : Option Char → List Char → Option Nat)
    (prev : Option Char) (rest : List Char) (h : (k prev rest).isSome) :
    (matchStar k prev rest).isSome := by
  cases rest with
  | nil => simpa [matchStar] using h
  | cons x xs =>
    by_cases hx : jsWs x
    · simp only [matchStar, hx, if_true]
      cases hms : matchStar k (some x) xs with
      | some n => simp
      | none => simpa using h
    · simpa [matchStar, hx] using h

theorem matchStar_sound {k : Option Char → List Char → Option Nat}
    {prev : Option Char} {rest : List Char} {n : Nat}
    (h : matchStar k prev rest = some n) :
    ∃ w rest' m, rest = w ++ rest' ∧ (∀ c ∈ w, jsWs c = true) ∧ n = w.length + m ∧
      k (lastOr w prev) rest' = some m := by
  induction rest generalizing prev n with
  | nil =>
    refine ⟨[], [], n, rfl, by simp, by simp, ?_⟩
    simpa [matchStar] using h
  | cons x xs ih =>
    by_cases hx : jsWs x
    · simp only [matchStar, hx, if_true] at h
      cases hms : matchStar k (some x) xs with
      | some n' =>
        rw [hms] at h
        simp at h
        obtain ⟨w, rest', m, hsp, hws, hn, hk⟩ := @ih (some x) n' hms
        refine ⟨x :: w, rest', m, by simp [hsp], ?_, ?_, by rwa [lastOr_cons]⟩
        · intro c hc
          rcases List.mem_cons.mp hc with hc | hc
          · rw [hc]; exact hx
          · exact hws c hc
        · simp only [List.length_cons]
          omega
      | none =>
        rw [hms] at h
        exact ⟨[], x :: xs, n, rfl, by simp, by simp, h⟩
    · simp only [matchStar, hx, Bool.false_eq_true, if_false] at h
      exact ⟨[], x :: xs, n, rfl, by simp, by simp, h⟩

theorem matchStar_complete {k : Option Char → List Char → Option Nat}
    (w : List Char) {prev : Option Char} {rest' : List Char}
    (hws : ∀ c ∈ w, jsWs c = true)
    (hk : (k (lastOr w prev) rest').isSome) :
    (matchStar k prev (w ++ rest')).isSome := by
  induction w generalizing prev with
  | nil => exact matchStar_of_k k prev rest' hk
  | cons x w' ih =>
    have hx : jsWs x = true := hws x (by simp)
    have hih : (matchStar k (some x) (w' ++ rest')).isSome :=
      @ih (some x) (fun c hc => hws c (by simp [hc])) (by rwa [lastOr_cons] at hk)
    simp only [List.cons_append, matchStar, hx, if_true]
    cases hms : matchStar k (some x) (w' ++ rest') with
    | some n => simp
    | none => rw [hms] at hih; simp at hih

theorem tm_star_intro (w : List Char) {ts : List Tok} {prev : Option Char}
    {rest' : List Char} {m : Nat} (hws : ∀ c ∈ w, jsWs c = true)
    (h : ToksMatch ts (lastOr w prev) rest' m) :
    ToksMatch (Tok.star :: ts) prev (w ++ rest') (w.length + m) := by
  induction w generalizing prev with
  | nil => simpa using ToksMatch.starSkip h
  | cons x w' ih =>
    have hx : jsWs x = true := hws x (by simp)
    have hrec : ToksMatch (Tok.star :: ts) (some x) (w' ++ rest') (w'.length + m) :=
      @ih (some x) (fun c hc => hws c (by simp [hc])) (by rwa [lastOr_cons] at h)
    have hres := @ToksMatch.starCons ts x prev (w' ++ rest') (w'.length + m) hx hrec
    have heq : w'.length + m + 1 = (x :: w').length + m := by
      simp only [List.length_cons]
      omega
    exact heq ▸ hres

theorem tm_star_elim {ts : List Tok} {prev : Option Char} {rest : List Char} {n : Nat}
    (h : ToksMatch (Tok.star :: ts) prev rest n) :
    ∃ w rest' m, rest = w ++ rest' ∧ (∀ c ∈ w, jsWs c = true) ∧ n = w.length + m ∧
      ToksMatch ts (lastOr w prev) rest' m := by
  induction rest generalizing prev n with
  | nil =>
    cases h with
    | starSkip h' => exact ⟨[], [], n, rfl, by simp, by simp, h'⟩
  | cons x xs ih =>
    cases h with
    | starSkip h' => exact ⟨[], x :: xs, n, rfl, by simp, by simp, h'⟩
    | starCons hx h' =>
      obtain ⟨w, rest', m, hsp, hws, hn, hm⟩ := ih h'
      refine ⟨x :: w, rest', m, by simp [hsp], ?_, ?_, by rwa [lastOr_cons]⟩
      · intro c hc
        rcases List.mem_cons.mp hc with hc | hc
        · rw [hc]; exact hx
        · exact hws c hc
      · simp only [List.length_cons]
        omega

theorem matchToks_sound : ∀ {ts : List Tok} {prev : Option Char} {rest : List Char}
    {n : Nat}, matchToks ts prev rest = some n → ToksMatch ts prev rest n := by
  intro ts
  induction ts with
  | nil =>
    intro prev rest n h
    by_cases hb : atBoundary prev rest.head? = true
    · simp only [matchToks, hb, if_true] at h
      have : n = 0 := by simpa using h.symm
      subst this
      exact ToksMatch.nil hb
    · simp [matchToks, hb] at h
  | cons t ts ih =>
    cases t with
    | lit c =>
      intro prev rest n h
      cases rest with
      | nil => simp [matchToks] at h
      | cons x xs =>
        simp only [matchToks] at h
        split at h
        · rename_i hx
          cases hmm : matchToks ts (some x) xs with
          | none => rw [hmm] at h; simp at h
          | some n' =>
            rw [hmm] at h
            simp at h
            exact h ▸ ToksMatch.lit hx (ih hmm)
        · simp at h
    | star =>
      intro prev rest n h
      simp only [matchToks] at h
      obtain ⟨w, rest', m, hsp, hws, hn, hk⟩ := matchStar_sound h
      subst hsp
      subst hn
      exact tm_star_intro w hws (ih hk)

theorem matchToks_complete {ts : List Tok} {prev : Option Char} {rest : List Char}
    {n : Nat} (h : ToksMatch ts prev rest n) : (matchToks ts prev rest).isSome := by
  induction h with
  | nil hb => simp [matchToks, hb]
  | lit hx h ih =>
    simp only [matchToks]
    rename_i c x ts prev xs n
    rw [if_pos hx]
    cases hmm : matchToks ts (some x) xs with
    | none => rw [hmm] at ih; simp at ih
    | some n' => simp
  | starSkip h ih =>
    rename_i ts prev rest n
    simp only [matchToks]
    exact matchStar_of_k (matchToks ts) prev rest (by simpa [matchToks] using ih)
  | starCons hx h ih =>
    rename_i ts x prev xs n
    simp only [matchToks] at ih ⊢
    simp only [matchStar, hx, if_true]
    cases hms : matchStar (matchToks ts) (some x) xs with
    | some n2 => simp
    | none => rw [hms] at ih; simp at ih

theorem matchFrom_sound : ∀ {toks : List Tok} {prev : Option Char} {rest : List Char}
    {i j n : Nat}, matchFrom toks prev rest i = some (j, n) →
    ∃ d, j = i + d ∧ d ≤ rest.length ∧
      tryAt toks (lastOr (rest.take d) prev) (rest.drop d) = some n ∧
      ∀ e < d, tryAt toks (lastOr (rest.take e) prev) (rest.drop e) = none := by
  intro toks prev rest
  induction rest generalizing prev with
  | nil =>
    intro i j n h
    simp only [matchFrom] at h
    cases htry : tryAt toks prev [] with
    | some n' =>
      rw [htry] at h
      simp at h
      obtain ⟨hj, hn⟩ := h
      exact ⟨0, by omega, by simp, by rw [hn] at htry; simpa using htry, by omega⟩
    | none =>
      rw [htry] at h
      simp at h
  | cons x xs ih =>
    intro i j n h
    simp only [matchFrom] at h
    cases htry : tryAt toks prev (x :: xs) with
    | some n' =>
      rw [htry] at h
      simp at h
      obtain ⟨hj, hn⟩ := h
      exact ⟨0, by omega, by simp, by rw [hn] at htry; simpa using htry, by omega⟩
    | none =>
      rw [htry] at h
      obtain ⟨d, hj, hd, htry2, hmin⟩ := @ih (some x) (i + 1) j n h
      refine ⟨d + 1, by omega, by simp; omega, ?_, ?_⟩
      · simpa [List.take_succ_cons, List.drop_succ_cons, lastOr_cons] using htry2
      · intro e he
        cases e with
        | zero => simpa using htry
        | succ e' =>
          have := hmin e' (by omega)
          simpa [List.take_succ_cons, List.drop_succ_cons, lastOr_cons] using this

theorem matchFrom_complete : ∀ {toks : List Tok} {prev : Option Char} {rest : List Char}
    {i : Nat} (d n : Nat),
    tryAt toks (lastOr (rest.take d) prev) (rest.drop d) = some n →
    (matchFrom toks prev rest i).isSome := by
  intro toks prev rest
  induction rest generalizing prev with
  | nil =>
    intro i d n h
    simp only [List.take_nil, List.drop_nil] at h
    have h' : tryAt toks prev [] = some n := h
    simp [matchFrom, h']
  | cons x xs ih =>
    intro i d n h
    cases htry : tryAt toks prev (x :: xs) with
    | some n' => simp [matchFrom, htry]
    | none =>
      cases d with
      | zero =>
        have h' : tryAt toks prev (x :: xs) = some n := h
        rw [htry] at h'
        simp at h'
      | succ d' =>
        have h' : tryAt toks (lastOr (xs.take d') (some x)) (xs.drop d') = some n := by
          simpa [List.take_succ_cons, List.drop_succ_cons, lastOr_cons] using h
        have hih := @ih (some x) (i + 1) d' n h'
        simp [matchFrom, htry, hih]

theorem occursAt_iff (w t : List Char) (j n : Nat) :
    CodeOccursAt w t j n ↔
      (j ≤ t.length ∧ atBoundary (t.take j).getLast? (t.drop j).head? = true ∧
        ToksMatch (toksOf w) (t.take j).getLast? (t.drop j) n) := by
  constructor
  · rintro ⟨u, v, ht, hlen, hb, hm⟩
    have hu : t.take j = u := by
      rw [ht, ← hlen]
      exact List.take_left u v
    have hv : t.drop j = v := by
      rw [ht, ← hlen]
      exact List.drop_left u v
    refine ⟨?_, by rw [hu, hv]; exact hb, by rw [hu, hv]; exact hm⟩
    rw [ht, List.length_append, ← hlen]
    omega
  · rintro ⟨hj, hb, hm⟩
    exact ⟨t.take j, t.drop j, (List.take_append_drop j t).symm,
      by rw [List.length_take]; omega, hb, hm⟩

/-- Claim C1 (counterexample).  Both universally quantified parts of the
claim fail on the code.  With wake phrase "hey jura": (1) on the transcript
"hey jura   tell me" — which does contain the phrase as a
whitespace-delimited substring — the matcher matches, but the extracted
command text is "tell me", not the content "   tell me" strictly after the
matched occurrence, because the code trims it; (2) the transcript
"heyjura tell me" does not contain the phrase as a whitespace-delimited
substring (zero whitespace between the words), yet the matcher reports a
match, because each space of the phrase is compiled to
zero-or-more-whitespace. -/
theorem wake_matcher_claim_counterexample :
    (specContainsB "hey jura".data "hey jura   tell me".data = true ∧
     wakeMatchL "hey jura".data "hey jura   tell me".data = some (0, 8) ∧
     commandTextL "hey jura".data "hey jura   tell me".data = some "tell me".data ∧
     "hey jura   tell me".data.drop 8 = "   tell me".data ∧
     "tell me".data ≠ "   tell me".data) ∧
    (specContainsB "hey jura".data "heyjura tell me".data = false ∧
     (wakeMatchL "hey jura".data "heyjura tell me".data).isSome = true) := by
  refine ⟨⟨?_, ?_, ?_, ?_, ?_⟩, ?_, ?_⟩ <;> decide

/-- Claim C1 (amended).  For every wake phrase W (compiled literally; the
code interpolates it into the pattern, so this is the behaviour for
phrases without regex metacharacters) and transcript T: the matcher
reports a match exactly when T contains the words of W in order,
case-insensitively, separated by arbitrary — possibly zero — whitespace,
with regex word boundaries at both ends (`CodeOccursAt`); it reports the
leftmost such occurrence, and the extracted command text equals the
content of T strictly after the matched occurrence with surrounding
whitespace removed; transcripts with no such occurrence report no
match. -/
theorem wake_matcher_amended (w t : List Char) :
    ((wakeMatchL w t).isSome ↔ ∃ j n, CodeOccursAt w t j n) ∧
    (∀ i n, wakeMatchL w t = some (i, n) →
      CodeOccursAt w t i n ∧ (∀ j m, CodeOccursAt w t j m → i ≤ j) ∧
      commandTextL w t = some (jsTrim (t.drop (i + n)))) := by
  have occ_of_try : ∀ d n, d ≤ t.length →
      tryAt (toksOf w) (lastOr (t.take d) none) (t.drop d) = some n →
      CodeOccursAt w t d n := by
    intro d n hd htry
    unfold tryAt at htry
    split at htry
    · rename_i hb
      rw [lastOr_none] at hb
      rw [occursAt_iff]
      exact ⟨hd, hb, matchToks_sound (by rwa [lastOr_none] at htry)⟩
    · exact absurd htry (by simp)
  have try_of_occ : ∀ j m, CodeOccursAt w t j m →
      ∃ n', tryAt (toksOf w) (lastOr (t.take j) none) (t.drop j) = some n' := by
    intro j m hocc
    rw [occursAt_iff] at hocc
    obtain ⟨hj, hb, hm⟩ := hocc
    obtain ⟨n', hn'⟩ := Option.isSome_iff_exists.mp (matchToks_complete hm)
    refine ⟨n', ?_⟩
    unfold tryAt
    rw [lastOr_none, if_pos hb]
    exact hn'
  constructor
  · constructor
    · intro hs
      obtain ⟨⟨i, n⟩, hik⟩ := Option.isSome_iff_exists.mp hs
      obtain ⟨d, hj, hd, htry, hmin⟩ := matchFrom_sound hik
      exact ⟨d, n, occ_of_try d n hd htry⟩
    · rintro ⟨j, m, hocc⟩
      obtain ⟨n', hn'⟩ := try_of_occ j m hocc
      exact matchFrom_complete j n' hn'
  · intro i n hik
    obtain ⟨d, hj, hd, htry, hmin⟩ := matchFrom_sound hik
    have hdi : d = i := by omega
    subst hdi
    refine ⟨occ_of_try d n hd htry, ?_, ?_⟩
    · intro j m hocc
      by_contra hlt
      push_neg at hlt
      obtain ⟨n', hn'⟩ := try_of_occ j m hocc
      rw [hmin j hlt] at hn'
      exact absurd hn' (by simp)
    · unfold commandTextL
      rw [hik]

/-- Claim C1 (amended, witness): with wake phrase "hey jura" and
transcript "hey jura ok", the matcher matches at position 0 with length 8
and the command text is the trimmed strict suffix. -/
theorem wake_matcher_amended_witness :
    commandTextL "hey jura".data "hey jura ok".data =
      some (jsTrim ("hey jura ok".data.drop (0 + 8))) :=
  ((wake_matcher_amended "hey jura".data "hey jura ok".data).2 0 8 (by decide)).2.2

end VoiceApp
